import Mathlib

/-!
Verification of the bandwidth-allocation solvers of
`bandwidth_allocation.py`: a greedy heuristic sorting candidates by
utility-per-demand efficiency, and an exact 0/1-knapsack dynamic program.
Demands and the capacity are integers (Python `int`); utilities and the
dynamic-programming table hold real numbers, modelled exactly by `ℚ`.
-/

namespace BandwidthAllocation

/-- Efficiency of candidate `i`: `utilities[i] / demands[i]`, the greedy
ranking key computed in `greedy_bandwidth_allocation`. -/
def eff (demands : List ℤ) (utilities : List ℚ) (i : ℕ) : ℚ :=
  utilities.getD i 0 / (demands.getD i 0 : ℚ)

/-- The order in which `users.sort(key=lambda x: x[1], reverse=True)` leaves
the candidate indices: a stable descending sort by efficiency places `i`
before `j` exactly when `i` has strictly larger efficiency, or the two are
tied and `i` came first in the input.  This relation is total, transitive
and antisymmetric on indices, so the sorted order is unique and any sorting
algorithm reproduces Python's stable sort. -/
def greedyLE (demands : List ℤ) (utilities : List ℚ) (i j : ℕ) : Prop :=
  eff demands utilities j < eff demands utilities i ∨
    (eff demands utilities i = eff demands utilities j ∧ i ≤ j)

instance (d : List ℤ) (u : List ℚ) : DecidableRel (greedyLE d u) := fun i j =>
  inferInstanceAs (Decidable (_ ∨ _))

instance (d : List ℤ) (u : List ℚ) : IsTotal ℕ (greedyLE d u) where
  total i j := by
    rcases lt_trichotomy (eff d u i) (eff d u j) with h | h | h
    · exact Or.inr (Or.inl h)
    · rcases Nat.le_total i j with hij | hij
      · exact Or.inl (Or.inr ⟨h, hij⟩)
      · exact Or.inr (Or.inr ⟨h.symm, hij⟩)
    · exact Or.inl (Or.inl h)

instance (d : List ℤ) (u : List ℚ) : IsTrans ℕ (greedyLE d u) where
  trans i j k hij hjk := by
    rcases hij with hij | ⟨hij, hij'⟩ <;> rcases hjk with hjk | ⟨hjk, hjk'⟩
    · exact Or.inl (hjk.trans hij)
    · exact Or.inl (hjk ▸ hij)
    · exact Or.inl (hij ▸ hjk)
    · exact Or.inr ⟨hij.trans hjk, hij'.trans hjk'⟩

/-- The candidate indices in the order the greedy loop visits them:
`[(i, utilities[i]/demands[i]) for i in range(n)]`, stably sorted by
efficiency descending. -/
def sortedUsers (demands : List ℤ) (utilities : List ℚ) : List ℕ :=
  List.insertionSort (greedyLE demands utilities) (List.range demands.length)

/-- The greedy selection loop of `greedy_bandwidth_allocation`:
`for idx, _ in users: if used_capacity + demands[idx] <= capacity: ...`. -/
def greedyLoop (demands : List ℤ) (utilities : List ℚ) (capacity : ℤ) :
    List ℕ → List ℤ → ℤ → ℚ → List ℤ × ℚ
  | [], allocations, _, total_utility => (allocations, total_utility)
  | idx :: rest, allocations, used_capacity, total_utility =>
    if used_capacity + demands.getD idx 0 ≤ capacity then
      greedyLoop demands utilities capacity rest (allocations.set idx 1)
        (used_capacity + demands.getD idx 0)
        (total_utility + utilities.getD idx 0)
    else
      greedyLoop demands utilities capacity rest allocations used_capacity
        total_utility

/-- `greedy_bandwidth_allocation(demands, utilities, capacity)`: sort the
candidates by efficiency descending (ties by input order, as Python's
stable sort does), then accept each visited candidate whose demand fits in
the remaining capacity.  Returns `(allocations, total_utility)`. -/
def greedy_bandwidth_allocation (demands : List ℤ) (utilities : List ℚ)
    (capacity : ℤ) : List ℤ × ℚ :=
  greedyLoop demands utilities capacity (sortedUsers demands utilities)
    (List.replicate demands.length 0) 0 0

/-- The dynamic-programming table of `optimal_bandwidth_allocation`:
`dp demands utilities i c` is `dp[i][c]`, the maximum utility achievable
with the first `i` candidates and capacity `c`.  Row `0` is all zeros; row
`i+1` is `dp[i][c]`, improved to
`max(dp[i][c], dp[i][c - demands[i]] + utilities[i])` when
`demands[i] <= c`. -/
def dp (demands : List ℤ) (utilities : List ℚ) : ℕ → ℕ → ℚ
  | 0, _ => 0
  | i + 1, c =>
    if demands.getD i 0 ≤ (c : ℤ) then
      max (dp demands utilities i c)
        (dp demands utilities i (c - (demands.getD i 0).toNat) +
          utilities.getD i 0)
    else
      dp demands utilities i c

/-- The backtracking loop of `optimal_bandwidth_allocation`:
`for i in range(n, 0, -1): if dp[i][c] != dp[i-1][c]:
allocations[i-1] = 1; c -= demands[i-1]`.  The subtraction
`c - (demands.getD i 0).toNat` is the exact Python `c -= demands[i-1]`:
whenever the branch is taken, `dp (i+1) c ≠ dp i c` forces
`demands[i] ≤ c` (see `dp_succ_ne`), so the natural subtraction never
truncates. -/
def backtrackAux (demands : List ℤ) (utilities : List ℚ) :
    ℕ → ℕ → List ℤ → List ℤ
  | 0, _, allocations => allocations
  | i + 1, c, allocations =>
    if dp demands utilities (i + 1) c ≠ dp demands utilities i c then
      backtrackAux demands utilities i (c - (demands.getD i 0).toNat)
        (allocations.set i 1)
    else
      backtrackAux demands utilities i c allocations

/-- `optimal_bandwidth_allocation(demands, utilities, capacity)`: fill the
knapsack table, backtrack for the allocation, and return
`(allocations, dp[n][capacity])`. -/
def optimal_bandwidth_allocation (demands : List ℤ) (utilities : List ℚ)
    (capacity : ℕ) : List ℤ × ℚ :=
  (backtrackAux demands utilities demands.length capacity
      (List.replicate demands.length 0),
    dp demands utilities demands.length capacity)

/-- Sum of `vals[j]` over the indices `j` the allocation marks with `1`
(the spec's "sum of `utility[i]` over accepted indices", and likewise for
demands). -/
def selSum {α : Type} [AddCommMonoid α] (vals : List α) (alloc : List ℤ) :
    α :=
  ∑ j in Finset.range alloc.length,
    if alloc.getD j 0 = 1 then vals.getD j 0 else 0

/-- Sum of `vals[i]` over a list of indices. -/
def idxSum {α : Type} [AddCommMonoid α] (vals : List α) (K : List ℕ) : α :=
  (K.map fun i => vals.getD i 0).sum

/-! ### Basic list helpers -/

lemma one_le_getD {d : List ℤ} (hd : ∀ x ∈ d, 1 ≤ x) {i : ℕ}
    (hi : i < d.length) : 1 ≤ d.getD i 0 := by
  rw [List.getD_eq_getElem?_getD, List.getElem?_eq_getElem hi, Option.getD_some]
  exact hd _ (List.getElem_mem hi)

lemma getD_set_self (alloc : List ℤ) (v : ℤ) {i : ℕ} (hi : i < alloc.length) :
    (alloc.set i v).getD i 0 = v := by
  rw [List.getD_eq_getElem?_getD, List.getElem?_set_self hi, Option.getD_some]

lemma getD_set_ne (alloc : List ℤ) (v : ℤ) {i j : ℕ} (hne : i ≠ j) :
    (alloc.set i v).getD j 0 = alloc.getD j 0 := by
  rw [List.getD_eq_getElem?_getD, List.getElem?_set_ne hne,
    List.getD_eq_getElem?_getD]

/-! ### selSum helpers -/

lemma selSum_eq_zero {α : Type} [AddCommMonoid α] (vals : List α)
    (alloc : List ℤ) (h : ∀ j, alloc.getD j 0 ≠ 1) : selSum vals alloc = 0 :=
  Finset.sum_eq_zero fun j _ => if_neg (h j)

lemma selSum_set_zero {α : Type} [AddCommMonoid α] (vals : List α)
    (alloc : List ℤ) {i : ℕ} (hi : i < alloc.length)
    (h1 : alloc.getD i 0 = 1) :
    selSum vals alloc = selSum vals (alloc.set i 0) + vals.getD i 0 := by
  unfold selSum
  rw [List.length_set]
  have hmem : i ∈ Finset.range alloc.length := Finset.mem_range.mpr hi
  rw [← Finset.add_sum_erase _ _ hmem, ← Finset.add_sum_erase _ _ hmem]
  rw [if_pos h1, if_neg (by rw [getD_set_self alloc 0 hi]; decide)]
  rw [Finset.sum_congr rfl fun j hj =>
    (by rw [getD_set_ne alloc 0 (Finset.ne_of_mem_erase hj).symm] :
      (if (alloc.set i 0).getD j 0 = 1 then vals.getD j 0 else 0)
        = if alloc.getD j 0 = 1 then vals.getD j 0 else 0)]
  rw [zero_add, add_comm]

lemma selSum_nonneg {d : List ℤ} (alloc : List ℤ)
    (hlen : alloc.length = d.length) (hd : ∀ x ∈ d, 1 ≤ x) :
    0 ≤ selSum d alloc := by
  apply Finset.sum_nonneg
  intro j hj
  split
  · exact le_trans zero_le_one
      (one_le_getD hd (hlen ▸ Finset.mem_range.mp hj))
  · exact le_rfl

/-! ### Facts about the dynamic-programming table -/

lemma dp_le_succ (d : List ℤ) (u : List ℚ) (i c : ℕ) :
    dp d u i c ≤ dp d u (i + 1) c := by
  simp only [dp]
  split
  · exact le_max_left _ _
  · exact le_rfl

/-- When the backtracking test `dp[i][c] != dp[i-1][c]` fires, candidate
`i-1` fits (`demands[i-1] ≤ c`) and the table value is the "take" branch. -/
lemma dp_succ_ne {d : List ℤ} {u : List ℚ} {i c : ℕ}
    (h : dp d u (i + 1) c ≠ dp d u i c) :
    d.getD i 0 ≤ (c : ℤ) ∧
      dp d u (i + 1) c
        = dp d u i (c - (d.getD i 0).toNat) + u.getD i 0 := by
  by_cases hdi : d.getD i 0 ≤ (c : ℤ)
  · refine ⟨hdi, ?_⟩
    have hmax : dp d u (i + 1) c
        = max (dp d u i c)
            (dp d u i (c - (d.getD i 0).toNat) + u.getD i 0) := by
      simp only [dp, if_pos hdi]
    rcases le_or_lt (dp d u i (c - (d.getD i 0).toNat) + u.getD i 0)
        (dp d u i c) with hle | hlt
    · exact absurd (hmax.trans (max_eq_left hle)) h
    · rw [hmax, max_eq_right hlt.le]
  · exact absurd (by simp only [dp, if_neg hdi]) h

/-- Upper bound: the table value `dp[i][c]` dominates the utility of every
feasible 0/1 allocation that accepts only candidates with index `< i`. -/
lemma dp_ge_selSum (d : List ℤ) (u : List ℚ) (hd : ∀ x ∈ d, 1 ≤ x) :
    ∀ (i : ℕ), i ≤ d.length → ∀ (c : ℕ) (alloc : List ℤ),
      alloc.length = d.length →
      (∀ j, i ≤ j → alloc.getD j 0 ≠ 1) →
      selSum d alloc ≤ (c : ℤ) →
      selSum u alloc ≤ dp d u i c := by
  intro i
  induction i with
  | zero =>
    intro _ c alloc _ hni _
    rw [selSum_eq_zero u alloc fun j => hni j (Nat.zero_le j)]
    exact le_refl (0 : ℚ)
  | succ i ih =>
    intro hin c alloc hlen hni hfeas
    by_cases hi1 : alloc.getD i 0 = 1
    · have hilt : i < d.length := lt_of_lt_of_le (Nat.lt_succ_self i) hin
      have hialloc : i < alloc.length := hlen ▸ hilt
      have hlen' : (alloc.set i 0).length = d.length := by
        rw [List.length_set]; exact hlen
      have hni' : ∀ j, i ≤ j → (alloc.set i 0).getD j 0 ≠ 1 := by
        intro j hij
        rcases eq_or_lt_of_le hij with rfl | hij'
        · rw [getD_set_self alloc 0 hialloc]; decide
        · rw [getD_set_ne alloc 0 (Nat.ne_of_lt hij')]
          exact hni j hij'
      have hsplitd := selSum_set_zero d alloc hialloc hi1
      have hsplitu := selSum_set_zero u alloc hialloc hi1
      have hd'nonneg : 0 ≤ selSum d (alloc.set i 0) :=
        selSum_nonneg _ hlen' hd
      have hdi1 : 1 ≤ d.getD i 0 := one_le_getD hd hilt
      rw [hsplitd] at hfeas
      have hdic : d.getD i 0 ≤ (c : ℤ) := by linarith
      have htc : (d.getD i 0).toNat ≤ c := by omega
      have hcast : (((c - (d.getD i 0).toNat : ℕ)) : ℤ)
          = (c : ℤ) - d.getD i 0 := by
        rw [Nat.cast_sub htc]; omega
      have hfeas' : selSum d (alloc.set i 0)
          ≤ (((c - (d.getD i 0).toNat : ℕ)) : ℤ) := by
        rw [hcast]
        linarith
      have hub := ih (Nat.le_of_succ_le hin) (c - (d.getD i 0).toNat)
        (alloc.set i 0) hlen' hni' hfeas'
      have : dp d u (i + 1) c
          = max (dp d u i c)
              (dp d u i (c - (d.getD i 0).toNat) + u.getD i 0) := by
        simp only [dp, if_pos hdic]
      rw [this, hsplitu]
      exact le_trans (by linarith) (le_max_right _ _)
    · have hni' : ∀ j, i ≤ j → alloc.getD j 0 ≠ 1 := by
        intro j hij
        rcases eq_or_lt_of_le hij with rfl | hij'
        · exact hi1
        · exact hni j hij'
      exact le_trans
        (ih (Nat.le_of_succ_le hin) c alloc hlen hni' hfeas)
        (dp_le_succ d u i c)

lemma getD_replicate_zero (n j : ℕ) :
    (List.replicate n (0 : ℤ)).getD j 0 = 0 := by
  rw [List.getD_eq_getElem?_getD, List.getElem?_replicate]
  split <;> rfl

/-- Correctness of the backtracking pass: starting from `i`, capacity `c`
and an allocation that is zero below `i`, the result is unchanged at or
above `i`, is 0/1 below `i`, and the candidates it accepts below `i` have
total demand at most `c` and total utility exactly `dp[i][c]`. -/
lemma backtrack_spec (d : List ℤ) (u : List ℚ) (hd : ∀ x ∈ d, 1 ≤ x) :
    ∀ (i : ℕ), i ≤ d.length → ∀ (c : ℕ) (alloc : List ℤ),
      alloc.length = d.length →
      (∀ j, j < i → alloc.getD j 0 = 0) →
      (backtrackAux d u i c alloc).length = d.length ∧
      (∀ j, i ≤ j →
        (backtrackAux d u i c alloc).getD j 0 = alloc.getD j 0) ∧
      (∀ j, j < i → (backtrackAux d u i c alloc).getD j 0 = 0 ∨
        (backtrackAux d u i c alloc).getD j 0 = 1) ∧
      (∑ j in Finset.range i,
        if (backtrackAux d u i c alloc).getD j 0 = 1
        then d.getD j 0 else 0) ≤ (c : ℤ) ∧
      (∑ j in Finset.range i,
        if (backtrackAux d u i c alloc).getD j 0 = 1
        then u.getD j 0 else 0) = dp d u i c := by
  intro i
  induction i with
  | zero =>
    intro _ c alloc hlen _
    refine ⟨hlen, fun j _ => rfl, fun j hj => absurd hj (Nat.not_lt_zero j),
      ?_, ?_⟩
    · simp
    · simp [dp]
  | succ i ih =>
    intro hin c alloc hlen hzero
    have hilt : i < d.length := lt_of_lt_of_le (Nat.lt_succ_self i) hin
    have hialloc : i < alloc.length := hlen ▸ hilt
    by_cases hne : dp d u (i + 1) c ≠ dp d u i c
    · obtain ⟨hdi, hdpeq⟩ := dp_succ_ne hne
      have hdi1 : 1 ≤ d.getD i 0 := one_le_getD hd hilt
      have htn : (((d.getD i 0).toNat : ℕ) : ℤ) = d.getD i 0 :=
        Int.toNat_of_nonneg (by linarith)
      have htc : (d.getD i 0).toNat ≤ c := by omega
      have hcast : (((c - (d.getD i 0).toNat : ℕ)) : ℤ)
          = (c : ℤ) - d.getD i 0 := by
        rw [Nat.cast_sub htc]; omega
      have hres : backtrackAux d u (i + 1) c alloc
          = backtrackAux d u i (c - (d.getD i 0).toNat) (alloc.set i 1) := by
        rw [backtrackAux, if_pos hne]
      have hlen' : (alloc.set i 1).length = d.length := by
        rw [List.length_set]; exact hlen
      have hzero' : ∀ j, j < i → (alloc.set i 1).getD j 0 = 0 := by
        intro j hj
        rw [getD_set_ne alloc 1 (Nat.ne_of_gt hj)]
        exact hzero j (Nat.lt_succ_of_lt hj)
      obtain ⟨L1, L2, L3, L4, L5⟩ :=
        ih (Nat.le_of_succ_le hin) (c - (d.getD i 0).toNat)
          (alloc.set i 1) hlen' hzero'
      rw [hres]
      have hgi : (backtrackAux d u i (c - (d.getD i 0).toNat)
          (alloc.set i 1)).getD i 0 = 1 := by
        rw [L2 i le_rfl, getD_set_self alloc 1 hialloc]
      refine ⟨L1, ?_, ?_, ?_, ?_⟩
      · intro j hj
        rw [L2 j (Nat.le_of_succ_le hj),
          getD_set_ne alloc 1 (Nat.ne_of_lt hj)]
      · intro j hj
        rcases Nat.lt_succ_iff_lt_or_eq.mp hj with hj' | rfl
        · exact L3 j hj'
        · exact Or.inr hgi
      · rw [Finset.sum_range_succ, if_pos hgi]
        rw [hcast] at L4
        linarith
      · rw [Finset.sum_range_succ, if_pos hgi, L5, hdpeq]
    · have hdpeq : dp d u (i + 1) c = dp d u i c := not_not.mp hne
      have hres : backtrackAux d u (i + 1) c alloc
          = backtrackAux d u i c alloc := by
        rw [backtrackAux, if_neg hne]
      obtain ⟨L1, L2, L3, L4, L5⟩ :=
        ih (Nat.le_of_succ_le hin) c alloc hlen
          (fun j hj => hzero j (Nat.lt_succ_of_lt hj))
      rw [hres]
      have hgi : (backtrackAux d u i c alloc).getD i 0 = 0 := by
        rw [L2 i le_rfl]
        exact hzero i (Nat.lt_succ_self i)
      refine ⟨L1, fun j hj => L2 j (Nat.le_of_succ_le hj), ?_, ?_, ?_⟩
      · intro j hj
        rcases Nat.lt_succ_iff_lt_or_eq.mp hj with hj' | rfl
        · exact L3 j hj'
        · exact Or.inl hgi
      · rw [Finset.sum_range_succ, if_neg (by rw [hgi]; decide)]
        rw [add_zero]
        exact L4
      · rw [Finset.sum_range_succ, if_neg (by rw [hgi]; decide),
          add_zero, L5, hdpeq]

/-- Shape and accounting for `optimal_bandwidth_allocation`: the returned
allocation has length `n`, is 0/1, its accepted demand is at most the
capacity, and its accepted utility is the returned `dp[n][capacity]`. -/
lemma optimal_spec (d : List ℤ) (u : List ℚ) (hd : ∀ x ∈ d, 1 ≤ x)
    (c : ℕ) :
    (optimal_bandwidth_allocation d u c).1.length = d.length ∧
    (∀ j, (optimal_bandwidth_allocation d u c).1.getD j 0 = 0 ∨
      (optimal_bandwidth_allocation d u c).1.getD j 0 = 1) ∧
    selSum d (optimal_bandwidth_allocation d u c).1 ≤ (c : ℤ) ∧
    selSum u (optimal_bandwidth_allocation d u c).1
      = (optimal_bandwidth_allocation d u c).2 := by
  obtain ⟨L1, L2, L3, L4, L5⟩ :=
    backtrack_spec d u hd d.length le_rfl c
      (List.replicate d.length 0)
      (List.length_replicate d.length 0)
      (fun j _ => getD_replicate_zero d.length j)
  have hA : (optimal_bandwidth_allocation d u c).1
      = backtrackAux d u d.length c (List.replicate d.length 0) := rfl
  refine ⟨hA ▸ L1, ?_, ?_, ?_⟩
  · intro j
    rcases lt_or_le j d.length with hj | hj
    · exact hA ▸ L3 j hj
    · rw [hA, L2 j hj, getD_replicate_zero]
      exact Or.inl rfl
  · rw [hA]
    unfold selSum
    rw [L1]
    exact L4
  · rw [hA]
    unfold selSum
    rw [L1]
    exact L5

/-! ### The greedy loop as a selection of indices -/

/-- The indices the greedy loop accepts, in visiting order: candidate `i`
is taken exactly when `used + demands[i] ≤ capacity` for the running
`used`. -/
def pickAux (demands : List ℤ) (capacity : ℤ) : List ℕ → ℤ → List ℕ
  | [], _ => []
  | i :: rest, used =>
    if used + demands.getD i 0 ≤ capacity then
      i :: pickAux demands capacity rest (used + demands.getD i 0)
    else
      pickAux demands capacity rest used

lemma greedyLoop_eq (d : List ℤ) (u : List ℚ) (c : ℤ) :
    ∀ (L : List ℕ) (alloc : List ℤ) (used : ℤ) (tot : ℚ),
      greedyLoop d u c L alloc used tot
        = (List.foldl (fun a i => a.set i 1) alloc (pickAux d c L used),
            tot + idxSum u (pickAux d c L used)) := by
  intro L
  induction L with
  | nil =>
    intro alloc used tot
    simp [greedyLoop, pickAux, idxSum]
  | cons i rest ih =>
    intro alloc used tot
    by_cases hfit : used + d.getD i 0 ≤ c
    · rw [greedyLoop, if_pos hfit, ih, pickAux, if_pos hfit]
      simp [idxSum, add_assoc]
    · rw [greedyLoop, if_neg hfit, ih, pickAux, if_neg hfit]

lemma pickAux_sublist (d : List ℤ) (c : ℤ) :
    ∀ (L : List ℕ) (used : ℤ), List.Sublist (pickAux d c L used) L := by
  intro L
  induction L with
  | nil => intro used; simp [pickAux]
  | cons i rest ih =>
    intro used
    rw [pickAux]
    split
    · exact List.Sublist.cons₂ i (ih _)
    · exact List.Sublist.cons i (ih _)

/-- The greedy loop never overfills: if the running `used` is within
capacity, `used` plus the demand it still accepts stays within capacity. -/
lemma pickAux_le (d : List ℤ) (c : ℤ) :
    ∀ (L : List ℕ) (used : ℤ), used ≤ c →
      used + idxSum d (pickAux d c L used) ≤ c := by
  intro L
  induction L with
  | nil =>
    intro used hu
    simp [pickAux, idxSum]
    exact hu
  | cons i rest ih =>
    intro used hu
    rw [pickAux]
    by_cases hfit : used + d.getD i 0 ≤ c
    · rw [if_pos hfit]
      have := ih (used + d.getD i 0) hfit
      simp only [idxSum, List.map_cons, List.sum_cons] at *
      linarith
    · rw [if_neg hfit]
      exact ih used hu

/-- With every demand at least 1 and a non-positive capacity, the greedy
loop accepts nothing. -/
lemma pickAux_nil (d : List ℤ) (c : ℤ) (hc : c ≤ 0) :
    ∀ (L : List ℕ), (∀ i ∈ L, 1 ≤ d.getD i 0) → pickAux d c L 0 = [] := by
  intro L
  induction L with
  | nil => intro _; rfl
  | cons i rest ih =>
    intro hL
    rw [pickAux, if_neg (by
      have := hL i (List.mem_cons_self i rest)
      intro hcon
      omega)]
    exact ih fun j hj => hL j (List.mem_cons_of_mem i hj)

lemma foldl_set_length :
    ∀ (K : List ℕ) (alloc : List ℤ),
      (List.foldl (fun a i => a.set i 1) alloc K).length = alloc.length := by
  intro K
  induction K with
  | nil => intro alloc; rfl
  | cons i K' ih =>
    intro alloc
    rw [List.foldl_cons, ih, List.length_set]

lemma foldl_set_getD :
    ∀ (K : List ℕ) (alloc : List ℤ), (∀ i ∈ K, i < alloc.length) →
      ∀ j, (List.foldl (fun a i => a.set i 1) alloc K).getD j 0
        = if j ∈ K then 1 else alloc.getD j 0 := by
  intro K
  induction K with
  | nil =>
    intro alloc _ j
    simp
  | cons i K' ih =>
    intro alloc hK j
    rw [List.foldl_cons,
      ih (alloc.set i 1)
        (fun i' hi' => by
          rw [List.length_set]
          exact hK i' (List.mem_cons_of_mem i hi'))]
    by_cases hjK : j ∈ K'
    · rw [if_pos hjK, if_pos (List.mem_cons_of_mem i hjK)]
    · by_cases hji : j = i
      · subst hji
        rw [if_neg hjK, if_pos (List.mem_cons_self j K'),
          getD_set_self alloc 1 (hK j (List.mem_cons_self j K'))]
      · rw [if_neg hjK,
          getD_set_ne alloc 1 fun h => hji h.symm,
          if_neg (by
            intro hmem
            rcases List.mem_cons.mp hmem with h | h
            · exact hji h
            · exact hjK h)]

/-! ### Properties of the sorted candidate order -/

lemma sortedUsers_perm (d : List ℤ) (u : List ℚ) :
    List.Perm (sortedUsers d u) (List.range d.length) :=
  List.perm_insertionSort _ _

lemma sortedUsers_nodup (d : List ℤ) (u : List ℚ) :
    (sortedUsers d u).Nodup :=
  ((sortedUsers_perm d u).nodup_iff).mpr (List.nodup_range _)

lemma mem_sortedUsers {d : List ℤ} {u : List ℚ} {i : ℕ} :
    i ∈ sortedUsers d u ↔ i < d.length := by
  rw [(sortedUsers_perm d u).mem_iff, List.mem_range]

/-! ### Characterizing the greedy allocator's output -/

lemma greedy_eq (d : List ℤ) (u : List ℚ) (c : ℤ) :
    greedy_bandwidth_allocation d u c
      = (List.foldl (fun a i => a.set i 1) (List.replicate d.length 0)
            (pickAux d c (sortedUsers d u) 0),
          idxSum u (pickAux d c (sortedUsers d u) 0)) := by
  unfold greedy_bandwidth_allocation
  rw [greedyLoop_eq, zero_add]

lemma pickAux_mem_lt {d : List ℤ} {u : List ℚ} {c : ℤ} {i : ℕ}
    (hi : i ∈ pickAux d c (sortedUsers d u) 0) : i < d.length :=
  mem_sortedUsers.mp ((pickAux_sublist d c (sortedUsers d u) 0).subset hi)

lemma greedy_alloc_getD (d : List ℤ) (u : List ℚ) (c : ℤ) (j : ℕ) :
    (greedy_bandwidth_allocation d u c).1.getD j 0
      = if j ∈ pickAux d c (sortedUsers d u) 0 then 1 else 0 := by
  rw [greedy_eq]
  rw [foldl_set_getD _ _ (fun i hi => by
    rw [List.length_replicate]
    exact pickAux_mem_lt hi)]
  simp only [getD_replicate_zero]

lemma greedy_alloc_length (d : List ℤ) (u : List ℚ) (c : ℤ) :
    (greedy_bandwidth_allocation d u c).1.length = d.length := by
  rw [greedy_eq]
  rw [foldl_set_length, List.length_replicate]

lemma greedy_alloc_01 (d : List ℤ) (u : List ℚ) (c : ℤ) (j : ℕ) :
    (greedy_bandwidth_allocation d u c).1.getD j 0 = 0 ∨
      (greedy_bandwidth_allocation d u c).1.getD j 0 = 1 := by
  rw [greedy_alloc_getD]
  split
  · exact Or.inr rfl
  · exact Or.inl rfl

/-- Rewriting a sum over "indices the allocation marks 1" as a sum over
the list of accepted indices, when the allocation is the indicator of
that (duplicate-free) list. -/
lemma selSum_indicator {α : Type} [AddCommMonoid α] (vals : List α) (n : ℕ)
    (K : List ℕ) (hnd : K.Nodup) (hK : ∀ i ∈ K, i < n) (alloc : List ℤ)
    (hlen : alloc.length = n)
    (hget : ∀ j, alloc.getD j 0 = if j ∈ K then 1 else 0) :
    selSum vals alloc = idxSum vals K := by
  unfold selSum
  rw [hlen]
  have h1 : ∀ j ∈ Finset.range n,
      (if alloc.getD j 0 = 1 then vals.getD j 0 else 0)
        = if j ∈ K.toFinset then vals.getD j 0 else 0 := by
    intro j _
    rw [hget j]
    by_cases hj : j ∈ K
    · simp [hj]
    · simp [hj]
  rw [Finset.sum_congr rfl h1, Finset.sum_ite_mem]
  have h2 : Finset.range n ∩ K.toFinset = K.toFinset := by
    apply Finset.ext
    intro j
    simp only [Finset.mem_inter, List.mem_toFinset, Finset.mem_range]
    exact ⟨fun h => h.2, fun h => ⟨hK j h, h⟩⟩
  rw [h2, List.sum_toFinset _ hnd]
  rfl

lemma greedy_selSum (d : List ℤ) (u : List ℚ) (c : ℤ)
    {α : Type} [AddCommMonoid α] (vals : List α) :
    selSum vals (greedy_bandwidth_allocation d u c).1
      = idxSum vals (pickAux d c (sortedUsers d u) 0) :=
  selSum_indicator vals d.length _
    ((pickAux_sublist d c (sortedUsers d u) 0).nodup (sortedUsers_nodup d u))
    (fun _ hi => pickAux_mem_lt hi)
    _ (greedy_alloc_length d u c) (greedy_alloc_getD d u c)

lemma greedy_total_eq (d : List ℤ) (u : List ℚ) (c : ℤ) :
    selSum u (greedy_bandwidth_allocation d u c).1
      = (greedy_bandwidth_allocation d u c).2 := by
  rw [greedy_selSum, greedy_eq]

lemma greedy_feasible (d : List ℤ) (u : List ℚ) {c : ℤ} (hc : 0 ≤ c) :
    selSum d (greedy_bandwidth_allocation d u c).1 ≤ c := by
  rw [greedy_selSum]
  have := pickAux_le d c (sortedUsers d u) 0 hc
  linarith

/-! ### Analysis of the greedy heuristic against the optimum

The classic argument: sort by efficiency, compare any feasible selection
with the fractional relaxation bound `fracBound`, and bound `fracBound`
by what the skipping greedy collects plus one best fitting candidate. -/

/-- The greedy selection in remaining-capacity form (equivalent to
`pickAux`, see `pickAux_eq_pickR`). -/
def pickR (demands : List ℤ) : List ℕ → ℤ → List ℕ
  | [], _ => []
  | i :: rest, r =>
    if demands.getD i 0 ≤ r then
      i :: pickR demands rest (r - demands.getD i 0)
    else
      pickR demands rest r

lemma pickAux_eq_pickR (d : List ℤ) (c : ℤ) :
    ∀ (L : List ℕ) (used : ℤ), pickAux d c L used = pickR d L (c - used) := by
  intro L
  induction L with
  | nil => intro used; rfl
  | cons i rest ih =>
    intro used
    by_cases hfit : used + d.getD i 0 ≤ c
    · rw [pickAux, if_pos hfit, pickR, if_pos (by omega), ih,
        (by omega : c - (used + d.getD i 0) = c - used - d.getD i 0)]
    · rw [pickAux, if_neg hfit, pickR, if_neg (by omega), ih]

lemma pickR_sublist (d : List ℤ) :
    ∀ (L : List ℕ) (r : ℤ), List.Sublist (pickR d L r) L := by
  intro L
  induction L with
  | nil => intro r; simp [pickR]
  | cons i rest ih =>
    intro r
    rw [pickR]
    split
    · exact List.Sublist.cons₂ i (ih _)
    · exact List.Sublist.cons i (ih _)

/-- Truncating an efficiency-sorted candidate list to the candidates that
fit the full capacity does not change what the greedy loop accepts, as
long as the remaining capacity is at most the full capacity. -/
lemma pickR_filter (d : List ℤ) (c : ℤ) :
    ∀ (L : List ℕ), (∀ i ∈ L, 1 ≤ d.getD i 0) → ∀ (r : ℤ), r ≤ c →
      pickR d (L.filter fun i => decide (d.getD i 0 ≤ c)) r
        = pickR d L r := by
  intro L
  induction L with
  | nil => intro _ r _; rfl
  | cons i rest ih =>
    intro hL r hrc
    have hd1 : 1 ≤ d.getD i 0 := hL i (List.mem_cons_self i rest)
    have hrest : ∀ j ∈ rest, 1 ≤ d.getD j 0 :=
      fun j hj => hL j (List.mem_cons_of_mem i hj)
    by_cases hic : d.getD i 0 ≤ c
    · rw [List.filter_cons_of_pos (by simpa using hic)]
      by_cases hir : d.getD i 0 ≤ r
      · rw [pickR, if_pos hir, pickR, if_pos hir,
          ih hrest (r - d.getD i 0) (by omega)]
      · rw [pickR, if_neg hir, pickR, if_neg hir, ih hrest r hrc]
    · rw [List.filter_cons_of_neg (by simpa using hic)]
      rw [ih hrest r hrc, pickR, if_neg (by omega)]

/-! ### idxSum helpers -/

lemma idxSum_nil {α : Type} [AddCommMonoid α] (vals : List α) :
    idxSum vals [] = 0 := rfl

lemma idxSum_cons {α : Type} [AddCommMonoid α] (vals : List α) (i : ℕ)
    (K : List ℕ) : idxSum vals (i :: K) = vals.getD i 0 + idxSum vals K := by
  simp [idxSum]

lemma idxSum_perm {α : Type} [AddCommMonoid α] (vals : List α)
    {K K' : List ℕ} (h : List.Perm K K') : idxSum vals K = idxSum vals K' :=
  (h.map _).sum_eq

lemma idxSum_d_nonneg {d : List ℤ} {K : List ℕ}
    (h : ∀ i ∈ K, 1 ≤ d.getD i 0) : 0 ≤ idxSum d K := by
  apply List.sum_nonneg
  intro x hx
  obtain ⟨i, hi, rfl⟩ := List.mem_map.mp hx
  exact le_trans zero_le_one (h i hi)

lemma idxSum_u_nonneg {u : List ℚ} {K : List ℕ}
    (h : ∀ i ∈ K, 0 ≤ u.getD i 0) : 0 ≤ idxSum u K := by
  apply List.sum_nonneg
  intro x hx
  obtain ⟨i, hi, rfl⟩ := List.mem_map.mp hx
  exact h i hi

lemma idxSum_d_single_le {d : List ℤ} {K : List ℕ}
    (h : ∀ i ∈ K, 1 ≤ d.getD i 0) {j : ℕ} (hj : j ∈ K) :
    d.getD j 0 ≤ idxSum d K :=
  List.single_le_sum
    (fun x hx => by
      obtain ⟨i, hi, rfl⟩ := List.mem_map.mp hx
      exact le_trans zero_le_one (h i hi))
    _ (List.mem_map_of_mem _ hj)

/-! ### Efficiency facts -/

lemma getD_u_nonneg {u : List ℚ} (hu : ∀ y ∈ u, 0 ≤ y) {i : ℕ}
    (hi : i < u.length) : 0 ≤ u.getD i 0 := by
  rw [List.getD_eq_getElem?_getD, List.getElem?_eq_getElem hi, Option.getD_some]
  exact hu _ (List.getElem_mem hi)

lemma eff_nonneg {d : List ℤ} {u : List ℚ} {i : ℕ}
    (hd1 : 1 ≤ d.getD i 0) (hu0 : 0 ≤ u.getD i 0) : 0 ≤ eff d u i := by
  apply div_nonneg hu0
  exact_mod_cast le_trans zero_le_one hd1

lemma eff_mul_demand {d : List ℤ} (u : List ℚ) {i : ℕ}
    (hd1 : 1 ≤ d.getD i 0) :
    eff d u i * (d.getD i 0 : ℚ) = u.getD i 0 := by
  have hne : ((d.getD i 0 : ℚ)) ≠ 0 := by
    have : (1 : ℚ) ≤ (d.getD i 0 : ℚ) := by exact_mod_cast hd1
    linarith
  rw [eff, div_mul_cancel₀ _ hne]

/-! ### The fractional relaxation bound -/

/-- Upper bound from the fractional relaxation, computed along an
efficiency-sorted candidate list: take each fitting candidate whole, and
value the first candidate that does not fit at its efficiency times the
remaining capacity. -/
def fracBound (demands : List ℤ) (utilities : List ℚ) :
    List ℕ → ℚ → ℚ
  | [], _ => 0
  | i :: rest, r =>
    if (demands.getD i 0 : ℚ) ≤ r then
      utilities.getD i 0 +
        fracBound demands utilities rest (r - (demands.getD i 0 : ℚ))
    else
      eff demands utilities i * r

lemma fracBound_zero (d : List ℤ) (u : List ℚ) :
    ∀ (L : List ℕ), (∀ i ∈ L, 1 ≤ d.getD i 0) → fracBound d u L 0 = 0 := by
  intro L
  induction L with
  | nil => intro _; rfl
  | cons i rest _ =>
    intro hL
    have hd1 : 1 ≤ d.getD i 0 := hL i (List.mem_cons_self i rest)
    rw [fracBound, if_neg (by
      have : (1 : ℚ) ≤ (d.getD i 0 : ℚ) := by exact_mod_cast hd1
      linarith)]
    exact mul_zero _

/-- Lipschitz property of the fractional bound: over candidates whose
efficiency is at most `e`, enlarging the capacity by `δ ≥ 0` gains at most
`e * δ`. -/
lemma fracBound_lip (d : List ℤ) (u : List ℚ) (e : ℚ) (he : 0 ≤ e) :
    ∀ (L : List ℕ), (∀ i ∈ L, 1 ≤ d.getD i 0) →
      (∀ i ∈ L, eff d u i ≤ e) →
      ∀ (r δ : ℚ), 0 ≤ r → 0 ≤ δ →
        fracBound d u L (r + δ) ≤ fracBound d u L r + e * δ := by
  intro L
  induction L with
  | nil =>
    intro _ _ r δ _ hδ
    have : 0 ≤ e * δ := mul_nonneg he hδ
    simpa [fracBound] using this
  | cons i rest ih =>
    intro hL heff r δ hr hδ
    have hd1 : 1 ≤ d.getD i 0 := hL i (List.mem_cons_self i rest)
    have hd1q : (1 : ℚ) ≤ (d.getD i 0 : ℚ) := by exact_mod_cast hd1
    have hrest : ∀ j ∈ rest, 1 ≤ d.getD j 0 :=
      fun j hj => hL j (List.mem_cons_of_mem i hj)
    have heffrest : ∀ j ∈ rest, eff d u j ≤ e :=
      fun j hj => heff j (List.mem_cons_of_mem i hj)
    have heffi : eff d u i ≤ e := heff i (List.mem_cons_self i rest)
    by_cases h1 : (d.getD i 0 : ℚ) ≤ r
    · rw [fracBound, if_pos (by linarith), fracBound, if_pos h1]
      have hrw : r + δ - (d.getD i 0 : ℚ)
          = (r - (d.getD i 0 : ℚ)) + δ := by ring
      rw [hrw]
      have := ih hrest heffrest (r - (d.getD i 0 : ℚ)) δ (by linarith) hδ
      linarith
    · by_cases h2 : (d.getD i 0 : ℚ) ≤ r + δ
      · rw [fracBound, if_pos h2, fracBound, if_neg h1]
        have hδ' : 0 ≤ r + δ - (d.getD i 0 : ℚ) := by linarith
        have hlip := ih hrest heffrest 0 (r + δ - (d.getD i 0 : ℚ))
          le_rfl hδ'
        rw [zero_add, fracBound_zero d u rest hrest, zero_add] at hlip
        have hui : eff d u i * (d.getD i 0 : ℚ) = u.getD i 0 :=
          eff_mul_demand u hd1
        nlinarith [mul_nonneg (sub_nonneg.mpr heffi)
          (by linarith : (0 : ℚ) ≤ (d.getD i 0 : ℚ) - r)]
      · rw [fracBound, if_neg h2, fracBound, if_neg h1, mul_add]
        have := mul_le_mul_of_nonneg_right heffi hδ
        linarith

/-- Any feasible selection from an efficiency-sorted candidate list is
bounded by the fractional relaxation. -/
lemma le_fracBound (d : List ℤ) (u : List ℚ) :
    ∀ (L : List ℕ), L.Nodup →
      (∀ i ∈ L, 1 ≤ d.getD i 0) → (∀ i ∈ L, 0 ≤ u.getD i 0) →
      List.Pairwise (fun i j => eff d u j ≤ eff d u i) L →
      ∀ (r : ℚ) (S : List ℕ), S.Nodup → (∀ j ∈ S, j ∈ L) →
        0 ≤ r → ((idxSum d S : ℤ) : ℚ) ≤ r →
        idxSum u S ≤ fracBound d u L r := by
  intro L
  induction L with
  | nil =>
    intro _ _ _ _ r S _ hSL _ _
    have : S = [] := List.eq_nil_iff_forall_not_mem.mpr
      fun j hj => (List.not_mem_nil j) (hSL j hj)
    subst this
    simp [idxSum_nil, fracBound]
  | cons i rest ih =>
    intro hnd hL hU hPW r S hSnd hSL hr hfeas
    have hd1 : 1 ≤ d.getD i 0 := hL i (List.mem_cons_self i rest)
    have hd1q : (1 : ℚ) ≤ (d.getD i 0 : ℚ) := by exact_mod_cast hd1
    have hu0 : 0 ≤ u.getD i 0 := hU i (List.mem_cons_self i rest)
    obtain ⟨hirest, hndrest⟩ := List.nodup_cons.mp hnd
    obtain ⟨hPWi, hPWrest⟩ := List.pairwise_cons.mp hPW
    have hrest : ∀ j ∈ rest, 1 ≤ d.getD j 0 :=
      fun j hj => hL j (List.mem_cons_of_mem i hj)
    have hUrest : ∀ j ∈ rest, 0 ≤ u.getD j 0 :=
      fun j hj => hU j (List.mem_cons_of_mem i hj)
    have heffi0 : 0 ≤ eff d u i := eff_nonneg hd1 hu0
    by_cases hiS : i ∈ S
    · have hperm : List.Perm S (i :: S.erase i) := List.perm_cons_erase hiS
      have hS'nd : (S.erase i).Nodup := hSnd.erase i
      have hS'mem : ∀ j ∈ S.erase i, j ∈ rest := by
        intro j hj
        obtain ⟨hne, hjS⟩ := (hSnd.mem_erase_iff).mp hj
        rcases List.mem_cons.mp (hSL j hjS) with h | h
        · exact absurd h hne
        · exact h
      have hdS : idxSum d S = d.getD i 0 + idxSum d (S.erase i) := by
        rw [idxSum_perm d hperm, idxSum_cons]
      have hS'nonneg : 0 ≤ idxSum d (S.erase i) :=
        idxSum_d_nonneg fun j hj => hrest j (hS'mem j hj)
      have hdSq : ((idxSum d S : ℤ) : ℚ)
          = (d.getD i 0 : ℚ) + ((idxSum d (S.erase i) : ℤ) : ℚ) := by
        rw [hdS]; push_cast; ring
      have hfit : (d.getD i 0 : ℚ) ≤ r := by
        rw [hdSq] at hfeas
        have : (0 : ℚ) ≤ ((idxSum d (S.erase i) : ℤ) : ℚ) := by
          exact_mod_cast hS'nonneg
        linarith
      rw [fracBound, if_pos hfit]
      have hih := ih hndrest hrest hUrest hPWrest
        (r - (d.getD i 0 : ℚ)) (S.erase i) hS'nd hS'mem
        (by linarith)
        (by rw [hdSq] at hfeas; linarith)
      have huS : idxSum u S = u.getD i 0 + idxSum u (S.erase i) := by
        rw [idxSum_perm u hperm, idxSum_cons]
      linarith
    · have hSrest : ∀ j ∈ S, j ∈ rest := by
        intro j hj
        rcases List.mem_cons.mp (hSL j hj) with rfl | h
        · exact absurd hj hiS
        · exact h
      have hih := ih hndrest hrest hUrest hPWrest r S hSnd hSrest hr hfeas
      have hstep : fracBound d u rest r ≤ fracBound d u (i :: rest) r := by
        by_cases hfit : (d.getD i 0 : ℚ) ≤ r
        · rw [fracBound, if_pos hfit]
          have hlip := fracBound_lip d u (eff d u i) heffi0 rest hrest
            hPWi (r - (d.getD i 0 : ℚ)) (d.getD i 0 : ℚ)
            (by linarith) (by linarith)
          rw [sub_add_cancel] at hlip
          have hui : eff d u i * (d.getD i 0 : ℚ) = u.getD i 0 :=
            eff_mul_demand u hd1
          linarith
        · rw [fracBound, if_neg hfit]
          have hlip := fracBound_lip d u (eff d u i) heffi0 rest hrest
            hPWi 0 r le_rfl hr
          rw [zero_add, fracBound_zero d u rest hrest, zero_add] at hlip
          exact hlip
      linarith

/-- The fractional bound over candidates that individually fit and have
utility at most `M` is at most what the skipping greedy collects, plus
`M`. -/
lemma fracBound_le_pickR (d : List ℤ) (u : List ℚ) (M : ℚ) (hM : 0 ≤ M) :
    ∀ (L : List ℕ), (∀ i ∈ L, 1 ≤ d.getD i 0) →
      (∀ i ∈ L, 0 ≤ u.getD i 0) → (∀ i ∈ L, u.getD i 0 ≤ M) →
      ∀ (r : ℤ), fracBound d u L ((r : ℤ) : ℚ)
        ≤ idxSum u (pickR d L r) + M := by
  intro L
  induction L with
  | nil =>
    intro _ _ _ r
    simpa [fracBound, pickR, idxSum_nil] using hM
  | cons i rest ih =>
    intro hL hU hUM r
    have hd1 : 1 ≤ d.getD i 0 := hL i (List.mem_cons_self i rest)
    have hu0 : 0 ≤ u.getD i 0 := hU i (List.mem_cons_self i rest)
    have hrest : ∀ j ∈ rest, 1 ≤ d.getD j 0 :=
      fun j hj => hL j (List.mem_cons_of_mem i hj)
    have hUrest : ∀ j ∈ rest, 0 ≤ u.getD j 0 :=
      fun j hj => hU j (List.mem_cons_of_mem i hj)
    have hUMrest : ∀ j ∈ rest, u.getD j 0 ≤ M :=
      fun j hj => hUM j (List.mem_cons_of_mem i hj)
    by_cases hfit : d.getD i 0 ≤ r
    · have hfitq : (d.getD i 0 : ℚ) ≤ ((r : ℤ) : ℚ) := by exact_mod_cast hfit
      rw [fracBound, if_pos hfitq, pickR, if_pos hfit, idxSum_cons]
      have hih := ih hrest hUrest hUMrest (r - d.getD i 0)
      have hcast : (((r - d.getD i 0 : ℤ)) : ℚ)
          = ((r : ℤ) : ℚ) - (d.getD i 0 : ℚ) := by push_cast; ring
      rw [hcast] at hih
      linarith
    · have hfitq : ¬ ((d.getD i 0 : ℚ) ≤ ((r : ℤ) : ℚ)) := by
        intro h
        exact hfit (by exact_mod_cast h)
      rw [fracBound, if_neg hfitq, pickR, if_neg hfit]
      have hpos : 0 ≤ idxSum u (pickR d rest r) :=
        idxSum_u_nonneg fun j hj =>
          hUrest j ((pickR_sublist d rest r).subset hj)
      have heffi0 : 0 ≤ eff d u i := eff_nonneg hd1 hu0
      have hrd : ((r : ℤ) : ℚ) ≤ (d.getD i 0 : ℚ) := by
        have : r < d.getD i 0 := lt_of_not_le hfit
        exact_mod_cast this.le
      have h1 : eff d u i * ((r : ℤ) : ℚ)
          ≤ eff d u i * (d.getD i 0 : ℚ) :=
        mul_le_mul_of_nonneg_left hrd heffi0
      rw [eff_mul_demand u hd1] at h1
      have h2 : u.getD i 0 ≤ M := hUM i (List.mem_cons_self i rest)
      linarith

/-! ### Best single fitting candidate -/

/-- The largest utility of any single candidate that fits the capacity by
itself (`0` when none does): the classic singleton fallback the greedy
heuristic lacks. -/
def maxFit (demands : List ℤ) (utilities : List ℚ) (capacity : ℤ) : ℚ :=
  (((List.range demands.length).filter fun i =>
      decide (demands.getD i 0 ≤ capacity)).map
    fun i => utilities.getD i 0).foldr max 0

lemma foldr_max_nonneg : ∀ (l : List ℚ), 0 ≤ l.foldr max 0
  | [] => le_rfl
  | x :: l => le_trans (foldr_max_nonneg l) (le_max_right x _)

lemma le_foldr_max : ∀ (l : List ℚ) (x : ℚ), x ∈ l → x ≤ l.foldr max 0 := by
  intro l
  induction l with
  | nil => intro x hx; exact absurd hx (List.not_mem_nil x)
  | cons y l ih =>
    intro x hx
    rcases List.mem_cons.mp hx with rfl | hx'
    · exact le_max_left x _
    · exact le_trans (ih x hx') (le_max_right y _)

lemma maxFit_nonneg (d : List ℤ) (u : List ℚ) (c : ℤ) :
    0 ≤ maxFit d u c :=
  foldr_max_nonneg _

lemma le_maxFit {d : List ℤ} {u : List ℚ} {c : ℤ} {i : ℕ}
    (hi : i < d.length) (hic : d.getD i 0 ≤ c) :
    u.getD i 0 ≤ maxFit d u c := by
  apply le_foldr_max
  exact List.mem_map_of_mem _
    (List.mem_filter.mpr ⟨List.mem_range.mpr hi, by simpa using hic⟩)

/-! ### Sortedness of the candidate order -/

lemma sortedUsers_pairwise (d : List ℤ) (u : List ℚ) :
    List.Pairwise (fun i j => eff d u j ≤ eff d u i) (sortedUsers d u) := by
  have h : List.Sorted (greedyLE d u) (sortedUsers d u) :=
    List.sorted_insertionSort (greedyLE d u) (List.range d.length)
  exact h.imp fun hle => by
    rcases hle with hlt | ⟨heq, _⟩
    · exact hlt.le
    · exact heq.ge

lemma getD_eq_zero_of_le {alloc : List ℤ} {j : ℕ}
    (h : alloc.length ≤ j) : alloc.getD j 0 = 0 := by
  rw [List.getD_eq_getElem?_getD, List.getElem?_eq_none h]
  rfl

/-! ### The greedy-plus-singleton bound -/

/-- The optimum is at most what the greedy heuristic collects plus the
best single fitting candidate. -/
lemma opt_le_greedy_add_maxFit (d : List ℤ) (u : List ℚ)
    (hlen : u.length = d.length)
    (hd : ∀ x ∈ d, 1 ≤ x) (hu : ∀ y ∈ u, 0 ≤ y) (c : ℕ) :
    dp d u d.length c
      ≤ (greedy_bandwidth_allocation d u (c : ℤ)).2
        + maxFit d u (c : ℤ) := by
  obtain ⟨hA1, hA2, hA3, hA4⟩ := optimal_spec d u hd c
  have hA2' := hA2
  set A := (optimal_bandwidth_allocation d u c).1 with hAdef
  set S := (List.range d.length).filter
    (fun j => decide (A.getD j 0 = 1)) with hSdef
  have hSnd : S.Nodup := (List.nodup_range _).filter _
  have hSmem : ∀ j, j ∈ S ↔ (j < d.length ∧ A.getD j 0 = 1) := by
    intro j
    rw [hSdef, List.mem_filter, List.mem_range]
    simp
  have hget : ∀ j, A.getD j 0 = if j ∈ S then 1 else 0 := by
    intro j
    by_cases hj : j ∈ S
    · rw [if_pos hj]
      exact ((hSmem j).mp hj).2
    · rw [if_neg hj]
      rcases lt_or_le j d.length with hjn | hjn
      · rcases hA2' j with h0 | h1
        · exact h0
        · exact absurd ((hSmem j).mpr ⟨hjn, h1⟩) hj
      · exact getD_eq_zero_of_le (by rw [hA1]; exact hjn)
  have hSd : selSum d A = idxSum d S :=
    selSum_indicator d d.length S hSnd
      (fun i hi => ((hSmem i).mp hi).1) A hA1 hget
  have hSu : selSum u A = idxSum u S :=
    selSum_indicator u d.length S hSnd
      (fun i hi => ((hSmem i).mp hi).1) A hA1 hget
  have hopt : (optimal_bandwidth_allocation d u c).2
      = dp d u d.length c := rfl
  have hSfeas : idxSum d S ≤ (c : ℤ) := by
    rw [← hSd]
    exact hA3
  have hSval : idxSum u S = dp d u d.length c := by
    rw [← hSu, hA4, hopt]
  have hSd1 : ∀ j ∈ S, 1 ≤ d.getD j 0 :=
    fun j hj => one_le_getD hd ((hSmem j).mp hj).1
  -- the efficiency-sorted candidate list, truncated to fitting candidates
  set L := sortedUsers d u with hLdef
  set L' := L.filter (fun i => decide (d.getD i 0 ≤ (c : ℤ))) with hLfdef
  have hLmem : ∀ i ∈ L, i < d.length := fun i hi => mem_sortedUsers.mp hi
  have hLd1 : ∀ i ∈ L, 1 ≤ d.getD i 0 :=
    fun i hi => one_le_getD hd (hLmem i hi)
  have hL'nd : L'.Nodup := (sortedUsers_nodup d u).filter _
  have hL'mem : ∀ i, i ∈ L' ↔ (i ∈ L ∧ d.getD i 0 ≤ (c : ℤ)) := by
    intro i
    rw [hLfdef, List.mem_filter]
    simp
  have hL'd1 : ∀ i ∈ L', 1 ≤ d.getD i 0 :=
    fun i hi => hLd1 i ((hL'mem i).mp hi).1
  have hL'u0 : ∀ i ∈ L', 0 ≤ u.getD i 0 := fun i hi =>
    getD_u_nonneg hu (by rw [hlen]; exact hLmem i ((hL'mem i).mp hi).1)
  have hL'uM : ∀ i ∈ L', u.getD i 0 ≤ maxFit d u (c : ℤ) := fun i hi =>
    le_maxFit (hLmem i ((hL'mem i).mp hi).1) ((hL'mem i).mp hi).2
  have hL'pw : List.Pairwise (fun i j => eff d u j ≤ eff d u i) L' :=
    (sortedUsers_pairwise d u).sublist (List.filter_sublist L)
  have hSL' : ∀ j ∈ S, j ∈ L' := by
    intro j hj
    apply (hL'mem j).mpr
    constructor
    · exact mem_sortedUsers.mpr ((hSmem j).mp hj).1
    · exact le_trans (idxSum_d_single_le hSd1 hj) hSfeas
  -- feasible selection ≤ fractional bound
  have hmain := le_fracBound d u L' hL'nd hL'd1 hL'u0 hL'pw
    (((c : ℕ) : ℤ) : ℚ) S hSnd hSL'
    (by positivity)
    (by exact_mod_cast hSfeas)
  -- fractional bound ≤ greedy + best single
  have hfrac := fracBound_le_pickR d u (maxFit d u (c : ℤ))
    (maxFit_nonneg d u (c : ℤ)) L' hL'd1 hL'u0 hL'uM ((c : ℕ) : ℤ)
  -- the greedy over the truncated list is the greedy itself
  have hpick : pickR d L' ((c : ℕ) : ℤ)
      = pickAux d ((c : ℕ) : ℤ) L 0 := by
    rw [hLfdef, pickR_filter d ((c : ℕ) : ℤ) L hLd1 _ le_rfl,
      pickAux_eq_pickR, sub_zero]
  have hgreedy : (greedy_bandwidth_allocation d u ((c : ℕ) : ℤ)).2
      = idxSum u (pickAux d ((c : ℕ) : ℤ) L 0) :=
    congrArg Prod.snd (greedy_eq d u ((c : ℕ) : ℤ))
  rw [hpick] at hfrac
  rw [← hgreedy] at hfrac
  rw [hSval] at hmain
  linarith

/-! ### Degenerate capacities -/

/-- With demands at least 1 and a non-positive capacity, the greedy
allocator returns the all-zero allocation and total utility `0`. -/
lemma greedy_nonpos (d : List ℤ) (u : List ℚ) {c : ℤ} (hc : c ≤ 0)
    (hd : ∀ x ∈ d, 1 ≤ x) :
    greedy_bandwidth_allocation d u c = (List.replicate d.length 0, 0) := by
  rw [greedy_eq, pickAux_nil d c hc _
    (fun i hi => one_le_getD hd (mem_sortedUsers.mp hi))]
  rfl

lemma dp_zero (d : List ℤ) (u : List ℚ) (hd : ∀ x ∈ d, 1 ≤ x) :
    ∀ i, i ≤ d.length → dp d u i 0 = 0 := by
  intro i
  induction i with
  | zero => intro _; rfl
  | succ i ih =>
    intro hin
    have hd1 : 1 ≤ d.getD i 0 :=
      one_le_getD hd (lt_of_lt_of_le (Nat.lt_succ_self i) hin)
    rw [dp, if_neg (by
      rw [Nat.cast_zero]
      omega)]
    exact ih (Nat.le_of_succ_le hin)

lemma backtrackAux_zero (d : List ℤ) (u : List ℚ) (hd : ∀ x ∈ d, 1 ≤ x) :
    ∀ i, i ≤ d.length → ∀ alloc, backtrackAux d u i 0 alloc = alloc := by
  intro i
  induction i with
  | zero => intro _ alloc; rfl
  | succ i ih =>
    intro hin alloc
    rw [backtrackAux, if_neg (by
      rw [dp_zero d u hd (i + 1) hin,
        dp_zero d u hd i (Nat.le_of_succ_le hin)]
      exact not_not_intro rfl)]
    exact ih (Nat.le_of_succ_le hin) alloc

/-- With demands at least 1 and capacity `0`, the exact allocator returns
the all-zero allocation and total utility `0`. -/
lemma optimal_zero (d : List ℤ) (u : List ℚ) (hd : ∀ x ∈ d, 1 ≤ x) :
    optimal_bandwidth_allocation d u 0 = (List.replicate d.length 0, 0) := by
  unfold optimal_bandwidth_allocation
  rw [backtrackAux_zero d u hd d.length le_rfl,
    dp_zero d u hd d.length le_rfl]

lemma greedy_getD_ne_one_of_le (d : List ℤ) (u : List ℚ) (c : ℤ) {j : ℕ}
    (hj : d.length ≤ j) :
    (greedy_bandwidth_allocation d u c).1.getD j 0 ≠ 1 := by
  rw [greedy_alloc_getD,
    if_neg (fun hmem => absurd (pickAux_mem_lt hmem) (not_lt.mpr hj))]
  decide

/-! ## The claims -/

/-- C1: for every instance with all demands ≥ 1 and capacity ≥ 0, the
allocation returned by `optimal_bandwidth_allocation` is feasible, and no
other feasible 0/1 allocation yields strictly higher total utility than
the total utility it returns. -/
theorem claim_C1 (demands : List ℤ) (utilities : List ℚ) (capacity : ℕ)
    (hlen : utilities.length = demands.length)
    (hdem : ∀ x ∈ demands, 1 ≤ x) :
    selSum demands
        (optimal_bandwidth_allocation demands utilities capacity).1
      ≤ (capacity : ℤ) ∧
    ∀ alloc : List ℤ, alloc.length = demands.length →
      (∀ j, alloc.getD j 0 = 0 ∨ alloc.getD j 0 = 1) →
      selSum demands alloc ≤ (capacity : ℤ) →
      selSum utilities alloc
        ≤ (optimal_bandwidth_allocation demands utilities capacity).2 := by
  obtain ⟨_, _, hA3, _⟩ := optimal_spec demands utilities hdem capacity
  refine ⟨hA3, ?_⟩
  intro alloc hal _ hfeas
  have hni : ∀ j, demands.length ≤ j → alloc.getD j 0 ≠ 1 := by
    intro j hjn
    rw [getD_eq_zero_of_le (by rw [hal]; exact hjn)]
    decide
  exact dp_ge_selSum demands utilities hdem demands.length le_rfl capacity
    alloc hal hni hfeas

/-- C2: for every instance with all demands ≥ 1 and capacity ≥ 0, both
allocators return an allocation whose accepted demand is at most the
capacity. -/
theorem claim_C2 (demands : List ℤ) (utilities : List ℚ) (capacity : ℕ)
    (hlen : utilities.length = demands.length)
    (hdem : ∀ x ∈ demands, 1 ≤ x) :
    selSum demands
        (greedy_bandwidth_allocation demands utilities (capacity : ℤ)).1
      ≤ (capacity : ℤ) ∧
    selSum demands
        (optimal_bandwidth_allocation demands utilities capacity).1
      ≤ (capacity : ℤ) :=
  ⟨greedy_feasible demands utilities (Int.natCast_nonneg capacity),
    (optimal_spec demands utilities hdem capacity).2.2.1⟩

/-- C3: for every instance with all demands ≥ 1 and capacity ≥ 0, the
greedy total utility is at most the exact allocator's total utility. -/
theorem claim_C3 (demands : List ℤ) (utilities : List ℚ) (capacity : ℕ)
    (hlen : utilities.length = demands.length)
    (hdem : ∀ x ∈ demands, 1 ≤ x) :
    (greedy_bandwidth_allocation demands utilities (capacity : ℤ)).2
      ≤ (optimal_bandwidth_allocation demands utilities capacity).2 := by
  rw [← greedy_total_eq]
  exact dp_ge_selSum demands utilities hdem demands.length le_rfl capacity
    (greedy_bandwidth_allocation demands utilities (capacity : ℤ)).1
    (greedy_alloc_length demands utilities (capacity : ℤ))
    (fun j hj => greedy_getD_ne_one_of_le demands utilities (capacity : ℤ) hj)
    (greedy_feasible demands utilities (Int.natCast_nonneg capacity))

/-- C4 (amended): the unconditional 50% bound fails for this greedy
(see `claim_C4_counterexample`), but the classical bound with the
singleton fallback holds: for every instance with all demands ≥ 1,
non-negative utilities and capacity ≥ 0, twice the better of the greedy
total utility and the best single fitting candidate's utility is at least
the optimal total utility. -/
theorem claim_C4_amended (demands : List ℤ) (utilities : List ℚ)
    (capacity : ℕ) (hlen : utilities.length = demands.length)
    (hdem : ∀ x ∈ demands, 1 ≤ x) (hutil : ∀ y ∈ utilities, 0 ≤ y) :
    (optimal_bandwidth_allocation demands utilities capacity).2
      ≤ 2 * max
          (greedy_bandwidth_allocation demands utilities (capacity : ℤ)).2
          (maxFit demands utilities (capacity : ℤ)) := by
  have h := opt_le_greedy_add_maxFit demands utilities hlen hdem hutil
    capacity
  have h1 : (greedy_bandwidth_allocation demands utilities (capacity : ℤ)).2
      ≤ max (greedy_bandwidth_allocation demands utilities (capacity : ℤ)).2
          (maxFit demands utilities (capacity : ℤ)) := le_max_left _ _
  have h2 : maxFit demands utilities (capacity : ℤ)
      ≤ max (greedy_bandwidth_allocation demands utilities (capacity : ℤ)).2
          (maxFit demands utilities (capacity : ℤ)) := le_max_right _ _
  have hopt : (optimal_bandwidth_allocation demands utilities capacity).2
      = dp demands utilities demands.length capacity := rfl
  rw [hopt]
  linarith

/-- C5 (amended): the code performs no input validation; in particular the
greedy allocator, called with valid demands and a negative capacity,
completes normally and returns the all-zero allocation with total utility
`0` instead of reporting an `InvalidInstance` error. -/
theorem claim_C5_amended (demands : List ℤ) (utilities : List ℚ)
    (capacity : ℤ) (hdem : ∀ x ∈ demands, 1 ≤ x) (hneg : capacity < 0) :
    greedy_bandwidth_allocation demands utilities capacity
      = (List.replicate demands.length 0, 0) :=
  greedy_nonpos demands utilities hneg.le hdem

/-- C8: for every instance with all demands ≥ 1 and capacity `0`, both
allocators return the all-zero allocation and total utility `0`. -/
theorem claim_C8 (demands : List ℤ) (utilities : List ℚ)
    (hlen : utilities.length = demands.length)
    (hdem : ∀ x ∈ demands, 1 ≤ x) :
    greedy_bandwidth_allocation demands utilities 0
      = (List.replicate demands.length 0, 0) ∧
    optimal_bandwidth_allocation demands utilities 0
      = (List.replicate demands.length 0, 0) :=
  ⟨greedy_nonpos demands utilities le_rfl hdem,
    optimal_zero demands utilities hdem⟩

/-- C9: for every instance with all demands ≥ 1 and capacity ≥ 0, each
allocator returns an allocation of exactly `n` values, each `0` or `1`,
and its returned total utility is the sum of `utilities[i]` over the
indices `i` marked `1`. -/
theorem claim_C9 (demands : List ℤ) (utilities : List ℚ) (capacity : ℕ)
    (hlen : utilities.length = demands.length)
    (hdem : ∀ x ∈ demands, 1 ≤ x) :
    ((greedy_bandwidth_allocation demands utilities (capacity : ℤ)).1.length
        = demands.length ∧
      (∀ j, (greedy_bandwidth_allocation demands utilities
          (capacity : ℤ)).1.getD j 0 = 0 ∨
        (greedy_bandwidth_allocation demands utilities
          (capacity : ℤ)).1.getD j 0 = 1) ∧
      (greedy_bandwidth_allocation demands utilities (capacity : ℤ)).2
        = selSum utilities
            (greedy_bandwidth_allocation demands utilities
              (capacity : ℤ)).1) ∧
    ((optimal_bandwidth_allocation demands utilities capacity).1.length
        = demands.length ∧
      (∀ j, (optimal_bandwidth_allocation demands utilities
          capacity).1.getD j 0 = 0 ∨
        (optimal_bandwidth_allocation demands utilities
          capacity).1.getD j 0 = 1) ∧
      (optimal_bandwidth_allocation demands utilities capacity).2
        = selSum utilities
            (optimal_bandwidth_allocation demands utilities capacity).1) := by
  obtain ⟨hO1, hO2, _, hO4⟩ := optimal_spec demands utilities hdem capacity
  exact ⟨⟨greedy_alloc_length demands utilities (capacity : ℤ),
      greedy_alloc_01 demands utilities (capacity : ℤ),
      (greedy_total_eq demands utilities (capacity : ℤ)).symm⟩,
    ⟨hO1, hO2, hO4.symm⟩⟩

/-- C10: for every instance with all demands ≥ 1, the greedy allocator
called with a negative capacity does not fail: it returns the all-zero
allocation and total utility `0`, since no candidate's demand ever fits. -/
theorem claim_C10 (demands : List ℤ) (utilities : List ℚ)
    (capacity : ℤ) (hdem : ∀ x ∈ demands, 1 ≤ x) (hneg : capacity < 0) :
    greedy_bandwidth_allocation demands utilities capacity
      = (List.replicate demands.length 0, 0) :=
  greedy_nonpos demands utilities hneg.le hdem

/-! ## Concrete instances: counterexamples, scenario checks, witnesses -/

section ConcreteInstances

attribute [local semireducible] Rat.add Rat.mul Rat.inv Rat.ofScientific

/-- C4 counterexample: on demands `[1,10]`, utilities `[2.0,10.0]`,
capacity `10`, the greedy heuristic returns utility `2` while the optimum
is `10`: twice the greedy utility is strictly below the optimum, so the
unconditional 50% bound fails. -/
theorem claim_C4_counterexample :
    2 * (greedy_bandwidth_allocation [1, 10] [2, 10] 10).2
      < (optimal_bandwidth_allocation [1, 10] [2, 10] 10).2 := by
  decide

/-- C5 counterexample: on the invalid input demands `[1]`,
utilities `[1.0]`, capacity `-1`, the greedy allocator reports no error at
all: it completes normally and produces the result `([0], 0.0)`. -/
theorem claim_C5_counterexample :
    greedy_bandwidth_allocation [1] [1] (-1) = ([0], 0) := by
  decide

/-- C6 counterexample: on demands `[5,3,4,6,2]`,
utilities `[10.0,6.0,8.0,15.0,5.0]`, capacity `10`, the optimal total
utility is not the claimed `24.0` (indices `{1,3}` only reach
`6.0 + 15.0 = 21.0`; the true optimum is `23.0`). -/
theorem claim_C6_counterexample :
    (optimal_bandwidth_allocation [5, 3, 4, 6, 2] [10, 6, 8, 15, 5] 10).2
      ≠ 24 := by
  decide

/-- C6 (amended): on demands `[5,3,4,6,2]`,
utilities `[10.0,6.0,8.0,15.0,5.0]`, capacity `10`, both allocators
produce feasible allocations, and the exact allocator's total utility
equals the brute-force maximum over all feasible 0/1 allocations, which is
`23.0`, achieved by accepting indices `{2,3}`. -/
theorem claim_C6_amended :
    optimal_bandwidth_allocation [5, 3, 4, 6, 2] [10, 6, 8, 15, 5] 10
      = ([0, 0, 1, 1, 0], 23) ∧
    greedy_bandwidth_allocation [5, 3, 4, 6, 2] [10, 6, 8, 15, 5] 10
      = ([0, 0, 0, 1, 1], 20) ∧
    selSum ([5, 3, 4, 6, 2] : List ℤ)
      (optimal_bandwidth_allocation [5, 3, 4, 6, 2] [10, 6, 8, 15, 5]
        10).1 ≤ (10 : ℤ) ∧
    selSum ([5, 3, 4, 6, 2] : List ℤ)
      (greedy_bandwidth_allocation [5, 3, 4, 6, 2] [10, 6, 8, 15, 5]
        10).1 ≤ (10 : ℤ) ∧
    ∀ alloc : List ℤ, alloc.length = 5 →
      (∀ j, alloc.getD j 0 = 0 ∨ alloc.getD j 0 = 1) →
      selSum ([5, 3, 4, 6, 2] : List ℤ) alloc ≤ (10 : ℤ) →
      selSum ([10, 6, 8, 15, 5] : List ℚ) alloc ≤ 23 := by
  refine ⟨by decide, by decide, by decide, by decide, ?_⟩
  intro alloc hal _ hfeas
  have hdp : dp [5, 3, 4, 6, 2] [10, 6, 8, 15, 5] 5 10 = 23 := by decide
  have hni : ∀ j, (5 : ℕ) ≤ j → alloc.getD j 0 ≠ 1 := by
    intro j hjn
    rw [getD_eq_zero_of_le (by rw [hal]; exact hjn)]
    decide
  have h := dp_ge_selSum [5, 3, 4, 6, 2] [10, 6, 8, 15, 5] (by decide) 5
    (by decide) 10 alloc hal hni hfeas
  rw [hdp] at h
  exact h

/-- C7: on demands `[1,2]`, utilities `[1.0,2.0]`, capacity `2`, the two
candidates have equal efficiency and the greedy allocator breaks the tie
by input order, returning `([1,0], 1.0)`, while the exact allocator
returns `([0,1], 2.0)`. -/
theorem claim_C7 :
    greedy_bandwidth_allocation [1, 2] [1, 2] 2 = ([1, 0], 1) ∧
    optimal_bandwidth_allocation [1, 2] [1, 2] 2 = ([0, 1], 2) :=
  ⟨by decide, by decide⟩

theorem claim_C1_witness :
    selSum [2, 3] (optimal_bandwidth_allocation [2, 3] [3, 4] 4).1
      ≤ (4 : ℤ) ∧
    ∀ alloc : List ℤ, alloc.length = 2 →
      (∀ j, alloc.getD j 0 = 0 ∨ alloc.getD j 0 = 1) →
      selSum [2, 3] alloc ≤ (4 : ℤ) →
      selSum [3, 4] alloc
        ≤ (optimal_bandwidth_allocation [2, 3] [3, 4] 4).2 :=
  claim_C1 [2, 3] [3, 4] 4 (by decide) (by decide)

theorem claim_C2_witness :
    selSum [2, 3] (greedy_bandwidth_allocation [2, 3] [3, 4] 4).1
      ≤ (4 : ℤ) ∧
    selSum [2, 3] (optimal_bandwidth_allocation [2, 3] [3, 4] 4).1
      ≤ (4 : ℤ) :=
  claim_C2 [2, 3] [3, 4] 4 (by decide) (by decide)

theorem claim_C3_witness :
    (greedy_bandwidth_allocation [2, 3] [3, 4] 4).2
      ≤ (optimal_bandwidth_allocation [2, 3] [3, 4] 4).2 :=
  claim_C3 [2, 3] [3, 4] 4 (by decide) (by decide)

theorem claim_C4_witness :
    (optimal_bandwidth_allocation [1, 10] [2, 10] 10).2
      ≤ 2 * max (greedy_bandwidth_allocation [1, 10] [2, 10] 10).2
          (maxFit [1, 10] [2, 10] 10) :=
  claim_C4_amended [1, 10] [2, 10] 10 (by decide) (by decide) (by decide)

theorem claim_C5_witness :
    greedy_bandwidth_allocation [1] [1] (-1)
      = (List.replicate 1 0, 0) :=
  claim_C5_amended [1] [1] (-1) (by decide) (by decide)

theorem claim_C8_witness :
    greedy_bandwidth_allocation [3] [2] 0 = (List.replicate 1 0, 0) ∧
    optimal_bandwidth_allocation [3] [2] 0 = (List.replicate 1 0, 0) :=
  claim_C8 [3] [2] (by decide) (by decide)

theorem claim_C9_witness :
    ((greedy_bandwidth_allocation [1, 2] [1, 2] 2).1.length = 2 ∧
      (∀ j, (greedy_bandwidth_allocation [1, 2] [1, 2] 2).1.getD j 0 = 0 ∨
        (greedy_bandwidth_allocation [1, 2] [1, 2] 2).1.getD j 0 = 1) ∧
      (greedy_bandwidth_allocation [1, 2] [1, 2] 2).2
        = selSum [1, 2] (greedy_bandwidth_allocation [1, 2] [1, 2] 2).1) ∧
    ((optimal_bandwidth_allocation [1, 2] [1, 2] 2).1.length = 2 ∧
      (∀ j, (optimal_bandwidth_allocation [1, 2] [1, 2] 2).1.getD j 0 = 0 ∨
        (optimal_bandwidth_allocation [1, 2] [1, 2] 2).1.getD j 0 = 1) ∧
      (optimal_bandwidth_allocation [1, 2] [1, 2] 2).2
        = selSum [1, 2]
            (optimal_bandwidth_allocation [1, 2] [1, 2] 2).1) :=
  claim_C9 [1, 2] [1, 2] 2 (by decide) (by decide)

theorem claim_C10_witness :
    greedy_bandwidth_allocation [2] [3] (-5)
      = (List.replicate 1 0, 0) :=
  claim_C10 [2] [3] (-5) (by decide) (by decide)

end ConcreteInstances

end BandwidthAllocation
